import Mathlib

/-!
Shallow embedding of the osu replay decoder (src/osrparse/replay.py).

Byte buffers are `List Nat`, the mutable cursor `self.offset` of the Python
class is threaded explicitly through every step, and the Python exceptions
the code can raise form the `PyErr` error type of an `Except` monad.  The
LZMA decompressor is an external library call and is passed in as a
parameter; the inner text format is decoded by `decodePlayDataText` exactly
as `parse_play_data` does after `lzma.decompress(...).decode('ascii')`.
-/

deriving instance DecidableEq for Except

namespace Osr

/-- The Python exceptions the decoding code in replay.py can raise:
`IndexError` (indexing past a bytes object), `ValueError` (int/float/enum
conversion failure), `struct.error` (unpack_from with too few bytes),
`UnicodeDecodeError` (bytes.decode failure), `LZMAError`, and the generic
`Exception("Invalid replay")` raised for an unknown string tag. -/
inductive PyErr where
  | indexError : PyErr
  | valueError : PyErr
  | structError : PyErr
  | unicodeDecodeError : PyErr
  | lzmaError : PyErr
  | exception : String → PyErr
  deriving Repr, DecidableEq

/-! ## ReplayEvent -/

/-- `ReplayEvent = namedtuple('ReplayEvent', 'timestamp, x, y, keys_pressed')`.
`x` and `y` are Python floats produced by `float(...)`; they are modelled as
rationals (the payload carries plain decimal literals, which the claims never
combine arithmetically, so the rational value is exact). -/
structure ReplayEvent where
  timestamp : Int
  x : ℚ
  y : ℚ
  keys_pressed : Int
  deriving Repr, DecidableEq

/-- `ReplayEvent.left = lambda self: self.keys_pressed & 1 != 0`. -/
def ReplayEvent.left (e : ReplayEvent) : Bool :=
  decide (Int.land e.keys_pressed 1 ≠ 0)

/-- `ReplayEvent.right = lambda self: self.keys_pressed & 2 != 0`. -/
def ReplayEvent.right (e : ReplayEvent) : Bool :=
  decide (Int.land e.keys_pressed 2 ≠ 0)

/-! ## Text helpers for the play-data payload -/

/-- Python `str.split(sep)` for a one-character separator: splits on every
occurrence, keeping empty pieces (`''.split(sep) == ['']`). -/
def pySplit (sep : Char) : List Char → List (List Char)
  | [] => [[]]
  | c :: rest =>
    let r := pySplit sep rest
    if c = sep then [] :: r
    else
      match r with
      | t :: ts => (c :: t) :: ts
      | [] => [[c]]

def digitsToNat (cs : List Char) : Nat :=
  cs.foldl (fun acc c => 10 * acc + (c.toNat - 48)) 0

/-- The ASCII whitespace characters Python `int(...)` strips from both ends
of its argument (the payload text is ASCII-decoded before tokenizing, so
unicode whitespace cannot occur there). -/
def pySpace (c : Char) : Bool :=
  c == ' ' || c == '\t' || c == '\n' || c == '\r' || c.toNat == 11 || c.toNat == 12

/-- The tail of a Python decimal digit sequence: digits, with a single
underscore allowed between two digits (`int("1_0") = 10`, while `"_1"`,
`"1_"` and `"1__0"` are rejected). -/
def pyDigitsRest : List Char → Bool
  | [] => true
  | '_' :: c :: rest => c.isDigit && pyDigitsRest rest
  | c :: rest => c.isDigit && pyDigitsRest rest

/-- A nonempty Python decimal digit sequence: a digit, then digits with
single underscores between digits. -/
def pyDigits : List Char → Bool
  | [] => false
  | c :: rest => c.isDigit && pyDigitsRest rest

/-- The value of a digit sequence accepted by `pyDigits`: the underscores
are group separators carrying no value. -/
def pyDigitsVal (cs : List Char) : Nat :=
  digitsToNat (cs.filter (fun c => c != '_'))

/-- Models Python `int(...)` on ASCII strings (the payload text is decoded
as ASCII before tokenizing, so unicode digits and unicode whitespace cannot
occur): surrounding whitespace is stripped, then an optional sign directly
followed by a nonempty digit sequence in which single underscores may stand
between digits. -/
def pyIntCore (cs0 : List Char) : Option Int :=
  let cs := ((cs0.dropWhile pySpace).reverse.dropWhile pySpace).reverse
  match cs with
  | '-' :: rest => if pyDigits rest then some (-(pyDigitsVal rest : Int)) else none
  | '+' :: rest => if pyDigits rest then some ((pyDigitsVal rest : Int)) else none
  | cs => if pyDigits cs then some ((pyDigitsVal cs : Int)) else none

def pyInt (cs : List Char) : Except PyErr Int :=
  match pyIntCore cs with
  | some v => .ok v
  | none => .error PyErr.valueError

/-- Magnitude part of Python `float(...)` restricted to plain decimal
literals `digits [. digits]` / `. digits` (exponents, inf/nan and whitespace
do not occur in replay payloads).  The value is kept exactly, as a rational. -/
def pyFloatMag (cs : List Char) : Option ℚ :=
  let ip := cs.takeWhile Char.isDigit
  let rest := cs.dropWhile Char.isDigit
  match rest with
  | [] => if ip = [] then none else some ((digitsToNat ip : ℚ))
  | '.' :: fp =>
    if (ip ≠ [] ∨ fp ≠ []) ∧ fp.all Char.isDigit then
      some ((digitsToNat ip : ℚ) + (digitsToNat fp : ℚ) / (10 : ℚ) ^ fp.length)
    else none
  | _ => none

def pyFloat (cs : List Char) : Except PyErr ℚ :=
  match cs with
  | '-' :: rest =>
    match pyFloatMag rest with
    | some v => .ok (-v)
    | none => .error PyErr.valueError
  | '+' :: rest =>
    match pyFloatMag rest with
    | some v => .ok v
    | none => .error PyErr.valueError
  | cs =>
    match pyFloatMag cs with
    | some v => .ok v
    | none => .error PyErr.valueError

/-! ## The play-data event loop -/

/-- Python `event[i]` on the list of fields of one token. -/
def getField (fields : List (List Char)) (i : Nat) : Except PyErr (List Char) :=
  match fields[i]? with
  | some f => .ok f
  | none => .error PyErr.indexError

/-- One iteration of the loop in `parse_play_data`: token number `i` (already
split on `|`), current accumulator `acc`; returns the new accumulator and the
emitted event, if any. -/
def processEvent (i : Nat) (fields : List (List Char)) (acc : Int) :
    Except PyErr (Int × Option ReplayEvent) := do
  let f0 ← getField fields 0
  let t ← pyInt f0
  if 2 ≤ i ∧ t < 0 then
    pure (acc + t, none)
  else do
    let x ← pyFloat (← getField fields 1)
    let y ← pyFloat (← getField fields 2)
    let k ← pyInt (← getField fields 3)
    pure (acc + t, some ⟨acc + t, x, y, k⟩)

/-- The whole loop of `parse_play_data`, before the final `[2:]` trim. -/
def processEvents (i : Nat) (acc : Int) :
    List (List (List Char)) → Except PyErr (List ReplayEvent)
  | [] => .ok []
  | fields :: rest => do
    let r ← processEvent i fields acc
    let tail ← processEvents (i + 1) r.1 rest
    pure
      (match r.2 with
       | some e => e :: tail
       | none => tail)

/-- The token table of a decompressed payload text: drop the final character
(`[:-1]`), split on `,`, split each piece on `|`. -/
def tokensOf (s : String) : List (List (List Char)) :=
  (pySplit ',' s.data.dropLast).map (pySplit '|')

/-- `parse_play_data` from the decompressed, ascii-decoded payload text on:
tokenize, run the accumulator loop, trim the first two emitted events. -/
def decodePlayDataText (s : String) : Except PyErr (List ReplayEvent) :=
  match processEvents 0 0 (tokensOf s) with
  | .ok evs => .ok (evs.drop 2)
  | .error e => .error e

/-! ## Mod bitmask expansion -/

/-- The lowest set bit as computed in `bits`: `b = n & (~n+1)`.  Python
integers are arbitrary-precision two's complement, so the computation goes
through `Int`. -/
def lowBit (n : Nat) : Nat :=
  (Int.land (n : Int) (~~~(n : Int) + 1)).toNat

/-- The `while n:` loop of the `bits` generator: repeatedly yield the lowest
set bit and clear it (`n ^= b`).  Fuel-indexed so the recursion is
structural; `bitsLoop_eq` below shows that fuel `n` always suffices, because
each iteration strictly decreases `n`. -/
def bitsFuel : Nat → Nat → List Nat
  | 0, _ => []
  | fuel + 1, n => if n = 0 then [] else lowBit n :: bitsFuel fuel (n ^^^ lowBit n)

def bitsLoop (n : Nat) : List Nat := bitsFuel n n

/-- The `bits` generator of `parse_mod_combination`: yields `0` when the
input is zero, otherwise the value of each set bit, lowest first. -/
def bits (n : Nat) : List Nat :=
  if n = 0 then 0 :: bitsLoop n else bitsLoop n

/-- Modelled from the spec: the `Mod` enumeration lives in enums.py, which is
not part of src/.  Per spec section 4.3 each named flag corresponds to exactly
one bit value of a fixed external enumeration table, so a flag is modelled as
the wrapper of its bit value. -/
structure Mod where
  val : Nat
  deriving Repr, DecidableEq

/-- `frozenset(Mod(v) for v in bits(mask))` for a nonnegative mask, as the
list of yielded flags (the generator yields each set bit once, so the list
has no duplicates; see the Nodup theorem). -/
def expandMods (mask : Nat) : List Mod :=
  (bits mask).map Mod.mk

/-- `parse_mod_combination` on the signed 32-bit mask read by
`parse_score_stats`.  Modelled from the spec for the negative case: the spec
makes unknown modifier bits fail, and a negative Python int has infinitely
many high bits set in two's complement, so its expansion necessarily leaves
the finite external `Mod` table (`Mod(...)` raises `ValueError`). -/
def parse_mod_combination (mask : Int) : Except PyErr (List Mod) :=
  if mask < 0 then .error PyErr.valueError else .ok (expandMods mask.toNat)

/-! ## ULEB128 (`__decode`) -/

/-- The `while True:` loop of `__decode` on the bytes from the current
offset: accumulate the low 7 bits of each byte, shifted by a running multiple
of 7, until a byte with the high bit clear; returns the value and the number
of bytes consumed.  Running past the end of the buffer is `IndexError`. -/
def ulebLoop : List Nat → Nat → Nat → Except PyErr (Nat × Nat)
  | [], _, _ => .error PyErr.indexError
  | b :: rest, shift, result =>
    let result2 := result ||| ((b &&& 127) <<< shift)
    if b &&& 128 = 0 then .ok (result2, 1)
    else
      match ulebLoop rest (shift + 7) result2 with
      | .ok (r, consumed) => .ok (r, consumed + 1)
      | .error e => .error e

/-- `__decode`: ULEB128 at `offset`; returns the value and the advanced
offset. -/
def decode (buf : List Nat) (offset : Nat) : Except PyErr (Nat × Nat) :=
  match ulebLoop (buf.drop offset) 0 0 with
  | .ok (r, consumed) => .ok (r, offset + consumed)
  | .error e => .error e

/-- The ULEB128 encoding described by the spec (sections 4.1 and 8): low 7
bits per byte, least-significant group first, high bit set on all but the
final byte.  The source only contains the decoder; this is the reference
encoder of the round-trip property.  Fuel-indexed for structural recursion;
`uleb128Encode_eq` shows fuel `n + 1` always suffices. -/
def ulebEncodeFuel : Nat → Nat → List Nat
  | 0, _ => []
  | fuel + 1, n => if n < 128 then [n] else (n % 128 + 128) :: ulebEncodeFuel fuel (n / 128)

def uleb128Encode (n : Nat) : List Nat := ulebEncodeFuel (n + 1) n

/-! ## UTF-8 / ASCII decoding -/

/-- Strict UTF-8 decoding as done by Python `bytes.decode("utf-8")`:
multi-byte sequences need valid continuation bytes, overlong encodings,
surrogates and code points above U+10FFFF are rejected. -/
def utf8DecodeChars : List Nat → Option (List Char)
  | [] => some []
  | b :: rest =>
    if b < 0x80 then
      match utf8DecodeChars rest with
      | some cs => some (Char.ofNat b :: cs)
      | none => none
    else if b < 0xC2 then none
    else if b < 0xE0 then
      match rest with
      | c1 :: rest2 =>
        if 0x80 ≤ c1 ∧ c1 < 0xC0 then
          match utf8DecodeChars rest2 with
          | some cs => some (Char.ofNat ((b - 0xC0) * 0x40 + (c1 - 0x80)) :: cs)
          | none => none
        else none
      | [] => none
    else if b < 0xF0 then
      match rest with
      | c1 :: c2 :: rest3 =>
        let cp := (b - 0xE0) * 0x1000 + (c1 - 0x80) * 0x40 + (c2 - 0x80)
        if 0x80 ≤ c1 ∧ c1 < 0xC0 ∧ 0x80 ≤ c2 ∧ c2 < 0xC0 ∧ 0x800 ≤ cp ∧
            (cp < 0xD800 ∨ 0xE000 ≤ cp) then
          match utf8DecodeChars rest3 with
          | some cs => some (Char.ofNat cp :: cs)
          | none => none
        else none
      | _ => none
    else if b < 0xF5 then
      match rest with
      | c1 :: c2 :: c3 :: rest4 =>
        let cp := (b - 0xF0) * 0x40000 + (c1 - 0x80) * 0x1000 + (c2 - 0x80) * 0x40 +
          (c3 - 0x80)
        if 0x80 ≤ c1 ∧ c1 < 0xC0 ∧ 0x80 ≤ c2 ∧ c2 < 0xC0 ∧ 0x80 ≤ c3 ∧ c3 < 0xC0 ∧
            0x10000 ≤ cp ∧ cp ≤ 0x10FFFF then
          match utf8DecodeChars rest4 with
          | some cs => some (Char.ofNat cp :: cs)
          | none => none
        else none
      | _ => none
    else none

def utf8Decode (bs : List Nat) : Option String :=
  match utf8DecodeChars bs with
  | some cs => some (String.mk cs)
  | none => none

/-- Python `bytes.decode('ascii')`: every byte must be below 0x80. -/
def asciiDecode (bs : List Nat) : Except PyErr String :=
  if bs.all (fun b => b < 128) then .ok (String.mk (bs.map Char.ofNat))
  else .error PyErr.unicodeDecodeError

/-! ## Byte-level readers -/

/-- Python slice `l[a:b]` for natural bounds. -/
def pySlice (l : List Nat) (a b : Nat) : List Nat := (l.take b).drop a

/-- Python slice `l[a:b]` where the stop index may be a negative int
(counted from the end, clamped at 0). -/
def pySliceInt (l : List Nat) (a : Nat) (b : Int) : List Nat :=
  let bN : Nat := if b < 0 then ((l.length : Int) + b).toNat else min b.toNat l.length
  (l.take bN).drop a

/-- `struct.unpack_from` reading of `n` raw bytes at `off`: `struct.error`
if fewer than `n` bytes remain. -/
def bytesAt (buf : List Nat) (off n : Nat) : Except PyErr (List Nat) :=
  if off + n ≤ buf.length then .ok ((buf.drop off).take n) else .error PyErr.structError

/-- Little-endian value of a byte list (first byte least significant). -/
def leNat (bs : List Nat) : Nat :=
  bs.foldr (fun b acc => b + 256 * acc) 0

/-- Two's-complement reinterpretation of a `w`-byte little-endian value, as
`struct`'s signed formats `b`, `h`, `i`, `q` do. -/
def toSigned (w v : Nat) : Int :=
  if v < 2 ^ (8 * w - 1) then (v : Int) else (v : Int) - 2 ^ (8 * w)

/-- A signed little-endian field of width `w` at `off` (struct formats
`<b`, `<h`, `<i`, `<q`). -/
def readSigned (buf : List Nat) (off w : Nat) : Except PyErr Int :=
  match bytesAt buf off w with
  | .ok bs => .ok (toSigned w (leNat bs))
  | .error e => .error e

/-- struct format `?`: one byte, true iff nonzero. -/
def readBool (buf : List Nat) (off : Nat) : Except PyErr Bool :=
  match bytesAt buf off 1 with
  | .ok bs => .ok (decide (leNat bs ≠ 0))
  | .error e => .error e

/-! ## String fields (`parse_string`) -/

/-- `parse_string`: tag byte 0x00 is an absent string (consume 1 byte), tag
0x0b is a ULEB128 length followed by that many UTF-8 bytes (the slice
silently clamps at the end of the buffer, as Python slices do), anything
else raises the generic `Exception("Invalid replay")`. -/
def parse_string (buf : List Nat) (offset : Nat) : Except PyErr (Option String × Nat) :=
  match buf[offset]? with
  | none => .error PyErr.indexError
  | some b =>
    if b = 0x00 then .ok (none, offset + 1)
    else if b = 0x0b then
      match decode buf (offset + 1) with
      | .error e => .error e
      | .ok (string_length, off2) =>
        match utf8Decode (pySlice buf off2 (off2 + string_length)) with
        | none => .error PyErr.unicodeDecodeError
        | some s => .ok (some s, off2 + string_length)
    else .error (PyErr.exception "Invalid replay")

/-! ## Header -/

/-- Modelled from the spec: the `GameMode` enumeration lives in enums.py,
which is not part of src/.  The spec names one primary mode (Standard) and
other modes that parse identically but carry no event stream; modelled as
the codes 0 to 3 with 0 the primary (Standard) mode.  A code outside the
enumeration is a `ValueError` (Python enum lookup failure). -/
def gameModeValid (c : Int) : Bool :=
  decide (0 ≤ c ∧ c ≤ 3)

/-- `parse_game_mode_and_version`: struct `<bi` at `offset` (signed byte game
mode code, signed 32-bit version), then the `GameMode` enum lookup; returns
mode code, version, advanced offset. -/
def parse_game_mode_and_version (buf : List Nat) (offset : Nat) :
    Except PyErr (Nat × Int × Nat) := do
  let mode_raw ← readSigned buf offset 1
  let version ← readSigned buf (offset + 1) 4
  if gameModeValid mode_raw then .ok (mode_raw.toNat, version, offset + 5)
  else .error PyErr.valueError

/-- The ten fields of struct `<hhhhhhih?i` in `parse_score_stats`. -/
structure ScoreStats where
  number_300s : Int
  number_100s : Int
  number_50s : Int
  gekis : Int
  katus : Int
  misses : Int
  score : Int
  max_combo : Int
  is_perfect_combo : Bool
  mod_combination : List Mod
  deriving Repr, DecidableEq

/-- `parse_score_stats`: struct `<hhhhhhih?i` (23 bytes, no padding) at
`offset`, then `parse_mod_combination` on the last field. -/
def parse_score_stats (buf : List Nat) (offset : Nat) :
    Except PyErr (ScoreStats × Nat) := do
  let n300 ← readSigned buf offset 2
  let n100 ← readSigned buf (offset + 2) 2
  let n50 ← readSigned buf (offset + 4) 2
  let gekis ← readSigned buf (offset + 6) 2
  let katus ← readSigned buf (offset + 8) 2
  let misses ← readSigned buf (offset + 10) 2
  let score ← readSigned buf (offset + 12) 4
  let max_combo ← readSigned buf (offset + 16) 2
  let perfect ← readBool buf (offset + 18)
  let mod_mask ← readSigned buf (offset + 19) 4
  let mods ← parse_mod_combination mod_mask
  pure (⟨n300, n100, n50, gekis, katus, misses, score, max_combo, perfect, mods⟩,
    offset + 23)

/-- Everything `parse_replay_and_initialize_fields` has decoded once
`parse_timestamp_and_replay_length` returns: all header fields, the payload
byte length, and the cursor position at the start of the payload. -/
structure Header where
  game_mode : Nat
  game_version : Int
  beatmap_hash : Option String
  player_name : Option String
  replay_hash : Option String
  stats : ScoreStats
  life_bar_graph : Option String
  timestamp : Int
  replay_length : Int
  offset : Nat
  deriving Repr, DecidableEq

/-- The header part of `parse_replay_and_initialize_fields`, in source
order: game mode and version, beatmap hash, player name, replay hash, score
stats, life-bar graph, timestamp and payload length (struct `<qi`). -/
def parse_header (buf : List Nat) : Except PyErr Header := do
  let (game_mode, game_version, o1) ← parse_game_mode_and_version buf 0
  let (beatmap_hash, o2) := (← parse_string buf o1)
  let (player_name, o3) := (← parse_string buf o2)
  let (replay_hash, o4) := (← parse_string buf o3)
  let (stats, o5) ← parse_score_stats buf o4
  let (life_bar_graph, o6) := (← parse_string buf o5)
  let timestamp ← readSigned buf o6 8
  let replay_length ← readSigned buf (o6 + 8) 4
  pure ⟨game_mode, game_version, beatmap_hash, player_name, replay_hash, stats,
    life_bar_graph, timestamp, replay_length, o6 + 12⟩

/-- `parse_play_data`: for a non-Standard game mode, store no events and set
the cursor to `offset + replay_length`; otherwise slice out the payload
(Python slicing silently clamps at the end of the buffer), decompress it
through the external LZMA routine `lz`, decode as ASCII, and run
`decodePlayDataText`.  Returns the optional event list and the final cursor
value (an `Int`, since a negative length field can move the cursor below
zero). -/
def parse_play_data (lz : List Nat → Except PyErr (List Nat)) (buf : List Nat)
    (h : Header) : Except PyErr (Option (List ReplayEvent) × Int) :=
  let offset_end : Int := (h.offset : Int) + h.replay_length
  if h.game_mode ≠ 0 then .ok (none, offset_end)
  else do
    let decompressed ← lz (pySliceInt buf h.offset offset_end)
    let datastring ← asciiDecode decompressed
    let events ← decodePlayDataText datastring
    pure (some events, offset_end)

/-- The fully decoded `Replay` object. -/
structure Replay where
  game_mode : Nat
  game_version : Int
  beatmap_hash : Option String
  player_name : Option String
  replay_hash : Option String
  stats : ScoreStats
  life_bar_graph : Option String
  timestamp : Int
  play_data : Option (List ReplayEvent)
  offset : Int
  deriving Repr, DecidableEq

/-- `parse_replay` / `Replay.__init__`: the whole pipeline over one buffer,
parameterized by the external LZMA decompressor. -/
def parse_replay (lz : List Nat → Except PyErr (List Nat)) (buf : List Nat) :
    Except PyErr Replay := do
  let h ← parse_header buf
  let (play_data, final) ← parse_play_data lz buf h
  pure ⟨h.game_mode, h.game_version, h.beatmap_hash, h.player_name, h.replay_hash,
    h.stats, h.life_bar_graph, h.timestamp, play_data, final⟩

/-- `Except.isOk` for our error type: did the computation not raise? -/
def isOk {α : Type} (e : Except PyErr α) : Bool :=
  match e with
  | .ok _ => true
  | .error _ => false

/-- The skip case of the play-data loop: token index at least 2 and a
relative-time field that parses to a negative integer. -/
def skipToken (i : Nat) (fields : List (List Char)) : Prop :=
  2 ≤ i ∧ ∃ f0 t, fields[0]? = some f0 ∧ pyIntCore f0 = some t ∧ t < 0

/-- A 44-byte buffer: game mode 1 (a non-primary mode), version 0, three
absent strings, all-zero score block, absent life bar, zero timestamp, and
payload length field 9 — pointing past the end of the buffer. -/
def bufTaikoPastEnd : List Nat :=
  [1, 0, 0, 0, 0,
   0, 0, 0,
   0, 0, 0, 0, 0, 0, 0, 0, 0, 0, 0, 0, 0, 0, 0, 0, 0, 0, 0, 0, 0, 0, 0,
   0,
   0, 0, 0, 0, 0, 0, 0, 0,
   9, 0, 0, 0]

/-- Like `bufTaikoPastEnd` but with game mode 0 — the primary (Standard)
mode — and the same oversized length field 9. -/
def bufStdPastEnd : List Nat :=
  [0, 0, 0, 0, 0,
   0, 0, 0,
   0, 0, 0, 0, 0, 0, 0, 0, 0, 0, 0, 0, 0, 0, 0, 0, 0, 0, 0, 0, 0, 0, 0,
   0,
   0, 0, 0, 0, 0, 0, 0, 0,
   9, 0, 0, 0]

/-- Like `bufTaikoPastEnd` but with game mode 3 and length field 7. -/
def bufManiaShort : List Nat :=
  [3, 0, 0, 0, 0,
   0, 0, 0,
   0, 0, 0, 0, 0, 0, 0, 0, 0, 0, 0, 0, 0, 0, 0, 0, 0, 0, 0, 0, 0, 0, 0,
   0,
   0, 0, 0, 0, 0, 0, 0, 0,
   7, 0, 0, 0]

/-! # Supporting lemmas

First the bit-manipulation kit behind `bits` (lowest-set-bit extraction)
and `__decode` (base-128 accumulation). -/

theorem lowBit_eq_ldiff : ∀ n : Nat, lowBit n = Nat.ldiff n (n - 1)
  | 0 => by
    have h1 : ~~~((0 : Nat) : Int) + 1 = 0 := by decide
    have h2 : Nat.ldiff 0 (0 - 1) = 0 := by simp [Nat.ldiff, Nat.bitwise]
    unfold lowBit
    rw [h1, h2]
    decide
  | k + 1 => by
    have h2 : ~~~((k + 1 : Nat) : Int) = Int.negSucc (k + 1) := rfl
    have h1 : ~~~((k + 1 : Nat) : Int) + 1 = Int.negSucc k := by
      rw [h2]
      simp only [Int.negSucc_eq]
      omega
    unfold lowBit
    rw [h1]
    rfl

theorem testBit_two_mul_zero (m : Nat) : Nat.testBit (2 * m) 0 = false := by
  rw [Nat.testBit_zero]
  simp only [decide_eq_false_iff_not]
  omega

theorem testBit_two_mul_add_one_zero (m : Nat) : Nat.testBit (2 * m + 1) 0 = true := by
  rw [Nat.testBit_zero]
  simp only [decide_eq_true_eq]
  omega

theorem testBit_two_mul_succ (m i : Nat) : Nat.testBit (2 * m) (i + 1) = Nat.testBit m i := by
  rw [Nat.testBit_add_one]
  congr 1
  omega

theorem testBit_two_mul_add_one_succ (m i : Nat) :
    Nat.testBit (2 * m + 1) (i + 1) = Nat.testBit m i := by
  rw [Nat.testBit_add_one]
  congr 1
  omega

theorem lowBit_odd (m : Nat) : lowBit (2 * m + 1) = 1 := by
  rw [lowBit_eq_ldiff]
  apply Nat.eq_of_testBit_eq
  intro i
  have h0 : 2 * m + 1 - 1 = 2 * m := by omega
  rw [h0]
  cases i with
  | zero =>
    rw [Nat.testBit_ldiff, testBit_two_mul_zero, testBit_two_mul_add_one_zero]
    decide
  | succ i =>
    rw [Nat.testBit_ldiff, testBit_two_mul_succ, testBit_two_mul_add_one_succ]
    simp [Nat.testBit_add_one]

theorem lowBit_even (m : Nat) : lowBit (2 * m) = 2 * lowBit m := by
  cases m with
  | zero => decide
  | succ k =>
    rw [lowBit_eq_ldiff, lowBit_eq_ldiff]
    apply Nat.eq_of_testBit_eq
    intro i
    have h0 : 2 * (k + 1) - 1 = 2 * k + 1 := by omega
    have h1 : k + 1 - 1 = k := by omega
    rw [h0, h1]
    cases i with
    | zero =>
      rw [Nat.testBit_ldiff, testBit_two_mul_zero, testBit_two_mul_zero]
      simp
    | succ i =>
      rw [Nat.testBit_ldiff, testBit_two_mul_succ, testBit_two_mul_add_one_succ,
        testBit_two_mul_succ, Nat.testBit_ldiff]

theorem two_mul_or (a b : Nat) : 2 * a ||| 2 * b = 2 * (a ||| b) := by
  apply Nat.eq_of_testBit_eq
  intro i
  cases i with
  | zero =>
    rw [Nat.testBit_or, testBit_two_mul_zero, testBit_two_mul_zero, testBit_two_mul_zero]
    rfl
  | succ i =>
    rw [Nat.testBit_or, testBit_two_mul_succ, testBit_two_mul_succ, testBit_two_mul_succ,
      Nat.testBit_or]

theorem two_mul_add_one_or (a b : Nat) : 2 * a + 1 ||| 2 * b = 2 * (a ||| b) + 1 := by
  apply Nat.eq_of_testBit_eq
  intro i
  cases i with
  | zero =>
    rw [Nat.testBit_or, testBit_two_mul_add_one_zero, testBit_two_mul_zero,
      testBit_two_mul_add_one_zero]
    rfl
  | succ i =>
    rw [Nat.testBit_or, testBit_two_mul_add_one_succ, testBit_two_mul_succ,
      testBit_two_mul_add_one_succ, Nat.testBit_or]

theorem two_mul_xor (a b : Nat) : 2 * a ^^^ 2 * b = 2 * (a ^^^ b) := by
  apply Nat.eq_of_testBit_eq
  intro i
  cases i with
  | zero =>
    rw [Nat.testBit_xor, testBit_two_mul_zero, testBit_two_mul_zero, testBit_two_mul_zero]
    rfl
  | succ i =>
    rw [Nat.testBit_xor, testBit_two_mul_succ, testBit_two_mul_succ, testBit_two_mul_succ,
      Nat.testBit_xor]

theorem odd_xor_one (m : Nat) : (2 * m + 1) ^^^ 1 = 2 * m := by
  apply Nat.eq_of_testBit_eq
  intro i
  cases i with
  | zero =>
    rw [Nat.testBit_xor, testBit_two_mul_add_one_zero, testBit_two_mul_zero]
    decide
  | succ i =>
    rw [Nat.testBit_xor, testBit_two_mul_add_one_succ, testBit_two_mul_succ]
    simp [Nat.testBit_add_one]

theorem xor_lowBit_lt (n : Nat) : n ≠ 0 → n ^^^ lowBit n < n := by
  induction n using Nat.strong_induction_on with
  | _ n ih =>
    intro hn
    rcases Nat.even_or_odd n with he | ho
    · obtain ⟨m, rfl⟩ := he
      have e : m + m = 2 * m := by omega
      rw [e]
      have hm : m ≠ 0 := by omega
      rw [lowBit_even, two_mul_xor]
      have hlt := ih m (by omega) hm
      omega
    · obtain ⟨m, rfl⟩ := ho
      rw [lowBit_odd, odd_xor_one]
      omega

theorem bitsFuel_congr (f1 : Nat) :
    ∀ f2 n, n ≤ f1 → n ≤ f2 → bitsFuel f1 n = bitsFuel f2 n := by
  induction f1 with
  | zero =>
    intro f2 n h1 _
    have hn : n = 0 := by omega
    subst hn
    cases f2 <;> simp [bitsFuel]
  | succ f ih =>
    intro f2 n h1 h2
    cases n with
    | zero => cases f2 <;> simp [bitsFuel]
    | succ m =>
      cases f2 with
      | zero => omega
      | succ f2a =>
        simp only [bitsFuel]
        rw [if_neg (Nat.succ_ne_zero m), if_neg (Nat.succ_ne_zero m)]
        have hlt := xor_lowBit_lt (m + 1) (Nat.succ_ne_zero m)
        rw [ih f2a ((m + 1) ^^^ lowBit (m + 1)) (by omega) (by omega)]

theorem bitsLoop_eq (n : Nat) :
    bitsLoop n = if n = 0 then [] else lowBit n :: bitsLoop (n ^^^ lowBit n) := by
  cases n with
  | zero => rfl
  | succ k =>
    rw [if_neg (Nat.succ_ne_zero k)]
    show bitsFuel (k + 1) (k + 1) = _
    simp only [bitsFuel]
    rw [if_neg (Nat.succ_ne_zero k)]
    have hlt := xor_lowBit_lt (k + 1) (Nat.succ_ne_zero k)
    rw [bitsFuel_congr k ((k + 1) ^^^ lowBit (k + 1)) ((k + 1) ^^^ lowBit (k + 1))
      (by omega) (by omega)]
    rfl

theorem bitsLoop_even (m : Nat) : bitsLoop (2 * m) = (bitsLoop m).map (fun x => 2 * x) := by
  induction m using Nat.strong_induction_on with
  | _ m ih =>
    cases m with
    | zero => rfl
    | succ k =>
      rw [bitsLoop_eq (2 * (k + 1)), if_neg (by omega), lowBit_even, two_mul_xor,
        ih ((k + 1) ^^^ lowBit (k + 1)) (xor_lowBit_lt (k + 1) (Nat.succ_ne_zero k)),
        bitsLoop_eq (k + 1), if_neg (Nat.succ_ne_zero k)]
      simp

theorem bitsLoop_odd (m : Nat) : bitsLoop (2 * m + 1) = 1 :: bitsLoop (2 * m) := by
  rw [bitsLoop_eq (2 * m + 1), if_neg (by omega), lowBit_odd, odd_xor_one]

theorem foldr_or_map_double (l : List Nat) :
    ((l.map (fun x => 2 * x)).foldr (fun a acc => a ||| acc) 0) =
      2 * l.foldr (fun a acc => a ||| acc) 0 := by
  induction l with
  | nil => rfl
  | cons a l ih => simp [ih, two_mul_or]

theorem foldr_or_bitsLoop (n : Nat) : (bitsLoop n).foldr (fun a acc => a ||| acc) 0 = n := by
  induction n using Nat.strong_induction_on with
  | _ n ih =>
    rcases Nat.even_or_odd n with he | ho
    · obtain ⟨m, rfl⟩ := he
      have e : m + m = 2 * m := by omega
      rw [e]
      cases m with
      | zero => rfl
      | succ k =>
        rw [bitsLoop_even, foldr_or_map_double, ih (k + 1) (by omega)]
    · obtain ⟨m, rfl⟩ := ho
      rw [bitsLoop_odd]
      simp only [List.foldr_cons]
      rw [ih (2 * m) (by omega)]
      have h1 := two_mul_add_one_or 0 m
      simpa using h1

theorem bitsLoop_nodup (n : Nat) : (bitsLoop n).Nodup := by
  induction n using Nat.strong_induction_on with
  | _ n ih =>
    rcases Nat.even_or_odd n with he | ho
    · obtain ⟨m, rfl⟩ := he
      have e : m + m = 2 * m := by omega
      rw [e]
      cases m with
      | zero => simp [bitsLoop, bitsFuel]
      | succ k =>
        rw [bitsLoop_even]
        exact ((ih (k + 1) (by omega)).map (fun x y hxy => by omega))
    · obtain ⟨m, rfl⟩ := ho
      rw [bitsLoop_odd, bitsLoop_even]
      refine List.nodup_cons.mpr ⟨?_, ?_⟩
      · intro hmem
        obtain ⟨x, _, hx⟩ := List.mem_map.mp hmem
        omega
      · exact ((ih m (by omega)).map (fun x y hxy => by omega))

theorem foldr_or_bits (n : Nat) : (bits n).foldr (fun a acc => a ||| acc) 0 = n := by
  by_cases h : n = 0
  · subst h
    rfl
  · rw [bits, if_neg h]
    exact foldr_or_bitsLoop n

theorem bits_nodup (n : Nat) : (bits n).Nodup := by
  by_cases h : n = 0
  · subst h
    simp [bits, bitsLoop, bitsFuel]
  · rw [bits, if_neg h]
    exact bitsLoop_nodup n

theorem shiftLeft_or_distrib (x y s : Nat) : (x ||| y) <<< s = x <<< s ||| y <<< s := by
  apply Nat.eq_of_testBit_eq
  intro j
  simp [Nat.testBit_shiftLeft, Nat.testBit_or, Bool.and_or_distrib_left]

theorem or_shift_eq_add (k : Nat) : ∀ a b : Nat, a < 2 ^ k → a ||| b <<< k = a + b * 2 ^ k := by
  induction k with
  | zero =>
    intro a b ha
    have h0 : a = 0 := by omega
    subst h0
    simp
  | succ k ih =>
    intro a b ha
    rcases Nat.even_or_odd a with he | ho
    · obtain ⟨m, rfl⟩ := he
      have e : m + m = 2 * m := by omega
      rw [e, Nat.shiftLeft_succ, two_mul_or, ih m b (by omega), pow_succ]
      ring
    · obtain ⟨m, rfl⟩ := ho
      rw [Nat.shiftLeft_succ, two_mul_add_one_or, ih m b (by omega), pow_succ]
      ring

theorem ulebEncodeFuel_congr (f1 : Nat) :
    ∀ f2 n, n < f1 → n < f2 → ulebEncodeFuel f1 n = ulebEncodeFuel f2 n := by
  induction f1 with
  | zero => intro f2 n h1 _; omega
  | succ f ih =>
    intro f2 n h1 h2
    cases f2 with
    | zero => omega
    | succ f2a =>
      simp only [ulebEncodeFuel]
      by_cases h : n < 128
      · rw [if_pos h, if_pos h]
      · rw [if_neg h, if_neg h]
        rw [ih f2a (n / 128) (by omega) (by omega)]

theorem uleb128Encode_eq (n : Nat) :
    uleb128Encode n =
      if n < 128 then [n] else (n % 128 + 128) :: uleb128Encode (n / 128) := by
  show ulebEncodeFuel (n + 1) n = _
  simp only [ulebEncodeFuel]
  by_cases h : n < 128
  · rw [if_pos h, if_pos h]
  · rw [if_neg h, if_neg h]
    rw [ulebEncodeFuel_congr n (n / 128 + 1) (n / 128) (by omega) (by omega)]
    rfl

theorem ulebLoop_encode (n : Nat) : ∀ (rest : List Nat) (shift result : Nat),
    ulebLoop (uleb128Encode n ++ rest) shift result =
      .ok (result ||| n <<< shift, (uleb128Encode n).length) := by
  induction n using Nat.strong_induction_on with
  | _ n ih =>
    intro rest shift result
    by_cases h : n < 128
    · rw [uleb128Encode_eq, if_pos h]
      simp only [List.cons_append, ulebLoop, List.length_cons, List.length_nil]
      have h127 : n &&& 127 = n := by
        have h2 := Nat.and_pow_two_sub_one_of_lt_two_pow (show n < 2 ^ 7 by omega)
        norm_num at h2
        exact h2
      have h128 : n &&& 128 = 0 := by
        have h2 := Nat.and_two_pow n 7
        have h3 : n.testBit 7 = false := Nat.testBit_lt_two_pow (by omega)
        rw [h3] at h2
        norm_num at h2
        exact h2
      rw [h127, h128, if_pos rfl]
    · rw [uleb128Encode_eq, if_neg h]
      simp only [List.cons_append, ulebLoop, List.length_cons]
      have hb127 : (n % 128 + 128) &&& 127 = n % 128 := by
        have h2 := Nat.and_pow_two_sub_one_eq_mod (n % 128 + 128) 7
        have h3 : (2 : Nat) ^ 7 - 1 = 127 := by norm_num
        have h4 : (2 : Nat) ^ 7 = 128 := by norm_num
        rw [h3, h4] at h2
        rw [h2]
        omega
      have hb128 : ¬ (n % 128 + 128) &&& 128 = 0 := by
        have h2 := Nat.and_two_pow (n % 128 + 128) 7
        have h4 : n % 128 + 128 = 2 ^ 7 + n % 128 := by omega
        have h3 : (n % 128 + 128).testBit 7 = true := by
          rw [h4, Nat.testBit_two_pow_add_eq,
            Nat.testBit_lt_two_pow (show n % 128 < 2 ^ 7 by omega)]
          rfl
        rw [h3] at h2
        norm_num at h2
        omega
      rw [hb127, if_neg hb128]
      rw [List.append_eq]
      rw [ih (n / 128) (by omega) rest (shift + 7) (result ||| (n % 128) <<< shift)]
      have hv : result ||| (n % 128) <<< shift ||| (n / 128) <<< (shift + 7) =
          result ||| n <<< shift := by
        rw [Nat.or_assoc]
        congr 1
        have hsh : (n / 128) <<< (shift + 7) = ((n / 128) <<< 7) <<< shift := by
          rw [Nat.add_comm shift 7, Nat.shiftLeft_add]
        rw [hsh, ← shiftLeft_or_distrib]
        congr 1
        rw [or_shift_eq_add 7 (n % 128) (n / 128) (by omega)]
        omega
      rw [hv]

theorem decode_encode (n : Nat) (rest : List Nat) :
    decode (uleb128Encode n ++ rest) 0 = .ok (n, (uleb128Encode n).length) := by
  unfold decode
  rw [List.drop_zero, ulebLoop_encode n rest 0 0]
  simp


theorem processEvent_short_fields_error (i : Nat) (fields : List (List Char)) (acc : Int)
    (hlen : fields.length < 4) (hskip : ¬ skipToken i fields) :
    isOk (processEvent i fields acc) = false := by
  match fields, hlen with
  | [], _ =>
    simp [processEvent, getField, isOk, Bind.bind, Except.bind, Pure.pure, Except.pure]
  | [a], _ =>
    cases hInt : pyIntCore a with
    | none => simp [processEvent, getField, pyInt, hInt, isOk, Bind.bind, Except.bind, Pure.pure, Except.pure]
    | some t =>
      by_cases hc : 2 ≤ i ∧ t < 0
      · exact absurd ⟨hc.1, a, t, rfl, hInt, hc.2⟩ hskip
      · simp [processEvent, getField, pyInt, hInt, isOk, Bind.bind, Except.bind, Pure.pure, Except.pure, hc]
  | [a, b], _ =>
    cases hInt : pyIntCore a with
    | none => simp [processEvent, getField, pyInt, hInt, isOk, Bind.bind, Except.bind, Pure.pure, Except.pure]
    | some t =>
      by_cases hc : 2 ≤ i ∧ t < 0
      · exact absurd ⟨hc.1, a, t, rfl, hInt, hc.2⟩ hskip
      · cases hF : pyFloat b with
        | error e => simp [processEvent, getField, pyInt, hInt, hF, isOk, Bind.bind, Except.bind, Pure.pure, Except.pure, hc]
        | ok x => simp [processEvent, getField, pyInt, hInt, hF, isOk, Bind.bind, Except.bind, Pure.pure, Except.pure, hc]
  | [a, b, c], _ =>
    cases hInt : pyIntCore a with
    | none => simp [processEvent, getField, pyInt, hInt, isOk, Bind.bind, Except.bind, Pure.pure, Except.pure]
    | some t =>
      by_cases hc : 2 ≤ i ∧ t < 0
      · exact absurd ⟨hc.1, a, t, rfl, hInt, hc.2⟩ hskip
      · cases hF : pyFloat b with
        | error e => simp [processEvent, getField, pyInt, hInt, hF, isOk, Bind.bind, Except.bind, Pure.pure, Except.pure, hc]
        | ok x =>
          cases hG : pyFloat c with
          | error e =>
            simp [processEvent, getField, pyInt, hInt, hF, hG, isOk, Bind.bind, Except.bind, Pure.pure, Except.pure, hc]
          | ok y =>
            simp [processEvent, getField, pyInt, hInt, hF, hG, isOk, Bind.bind, Except.bind, Pure.pure, Except.pure, hc]


theorem processEvents_short_fields_error (tokens : List (List (List Char))) :
    ∀ (i0 : Nat) (acc : Int) (j : Nat) (fields : List (List Char)),
      tokens[j]? = some fields → fields.length < 4 → ¬ skipToken (i0 + j) fields →
      isOk (processEvents i0 acc tokens) = false := by
  induction tokens with
  | nil =>
    intro i0 acc j fields hj _ _
    simp at hj
  | cons t rest ih =>
    intro i0 acc j fields hj hlen hskip
    cases j with
    | zero =>
      simp only [List.getElem?_cons_zero, Option.some.injEq] at hj
      subst hj
      have hstep := processEvent_short_fields_error i0 t acc hlen
        (by simpa using hskip)
      cases hpe : processEvent i0 t acc with
      | error e => simp [processEvents, hpe, isOk, Bind.bind, Except.bind]
      | ok r =>
        rw [hpe] at hstep
        simp [isOk] at hstep
    | succ j =>
      simp only [List.getElem?_cons_succ] at hj
      cases hpe : processEvent i0 t acc with
      | error e => simp [processEvents, hpe, isOk, Bind.bind, Except.bind]
      | ok r =>
        have hrest := ih (i0 + 1) r.1 j fields hj hlen
          (by rw [show i0 + 1 + j = i0 + (j + 1) from by omega]; exact hskip)
        cases hq : processEvents (i0 + 1) r.1 rest with
        | error e =>
          simp [processEvents, hpe, hq, isOk, Bind.bind, Except.bind, Pure.pure, Except.pure]
        | ok tail =>
          rw [hq] at hrest
          simp [isOk] at hrest


/-- C1 (amended example): decoding the decompressed payload
"0|0|0|0,0|0|0|0,-50|0|0|0,10|5|5|1," — ending with the trailing separator
character that `parse_play_data` strips — yields exactly one event, with
absolute timestamp -40 = 0 + 0 + (-50) + 10: the accumulator picks up every
token's relative time including the skipped negative one at index 2, the
skipped token emits no event, and the first two emitted events are dropped
unconditionally. -/
theorem playData_terminated_example :
    decodePlayDataText "0|0|0|0,0|0|0|0,-50|0|0|0,10|5|5|1," =
      .ok [⟨-40, 5, 5, 1⟩] := by
  decide

/-- C1 (counterexample to the claim as stated): on the decompressed payload
exactly as the claim writes it — without a trailing separator — the decoder
raises ValueError instead of yielding one event: `parse_play_data` drops the
final character of the text before tokenizing, so the last token becomes
"10|5|5|" and `int('')` fails. -/
theorem playData_unterminated_example_errors :
    decodePlayDataText "0|0|0|0,0|0|0|0,-50|0|0|0,10|5|5|1" =
      .error PyErr.valueError := by
  decide

/-- C2 (counterexample): a 44-byte buffer whose header decodes successfully
(game mode 1, header ends at offset 44, payload length field 9 pointing past
the end of the buffer), on which the decode does not fail with any
truncation error: it succeeds, with no event stream — the payload slice is
silently truncated by Python slicing semantics. -/
theorem lengthPastEnd_decode_succeeds :
    (parse_header bufTaikoPastEnd).map
        (fun h => (h.game_mode, h.offset, h.replay_length)) = .ok (1, 44, 9) ∧
      bufTaikoPastEnd.length = 44 ∧
      (parse_replay (fun _ => .error PyErr.lzmaError) bufTaikoPastEnd).map
        (fun r => r.play_data) = .ok none := by
  refine ⟨by decide, by decide, by decide⟩

/-- C2 (amended): when the header decodes successfully but the payload
length field points past the end of the buffer, the decode never raises a
truncation error — the payload slice is silently clamped to the end of the
buffer: the slice handed on is exactly the bytes that remain.  For every
non-primary game mode the whole decode then succeeds, with no event
sequence and the cursor set past the end; for the primary mode the clamped
slice is handed to the LZMA decompressor, and a failing decompressor's
error is surfaced verbatim — a decompression error, not a truncation
error. -/
theorem lengthPastEnd_silently_truncated
    (lz : List Nat → Except PyErr (List Nat)) (buf : List Nat) (h : Header)
    (hh : parse_header buf = .ok h)
    (hpast : (buf.length : Int) < (h.offset : Int) + h.replay_length) :
    pySliceInt buf h.offset ((h.offset : Int) + h.replay_length) = buf.drop h.offset ∧
      (h.game_mode ≠ 0 →
        (parse_replay lz buf).map (fun r => (r.play_data, r.offset)) =
          .ok (none, (h.offset : Int) + h.replay_length)) ∧
      (h.game_mode = 0 → ∀ e, lz (buf.drop h.offset) = .error e →
        parse_replay lz buf = .error e) := by
  have hclamp : pySliceInt buf h.offset ((h.offset : Int) + h.replay_length) =
      buf.drop h.offset := by
    have hb0 : ¬ ((h.offset : Int) + h.replay_length < 0) := by omega
    have hge : buf.length ≤ ((h.offset : Int) + h.replay_length).toNat := by omega
    simp only [pySliceInt, if_neg hb0, Nat.min_eq_right hge, List.take_length]
  refine ⟨hclamp, ?_, ?_⟩
  · intro hmode
    simp [parse_replay, hh, parse_play_data, hmode, Bind.bind, Except.bind, Except.map,
      Pure.pure, Except.pure]
  · intro hmode e he
    simp [parse_replay, hh, parse_play_data, hmode, hclamp, he, Bind.bind, Except.bind,
      Pure.pure, Except.pure]

theorem lengthPastEnd_silently_truncated_witness :
    pySliceInt bufStdPastEnd 44 ((44 : Int) + 9) = bufStdPastEnd.drop 44 ∧
      parse_replay (fun _ => .error PyErr.lzmaError) bufStdPastEnd =
        .error PyErr.lzmaError := by
  have h := lengthPastEnd_silently_truncated (fun _ => .error PyErr.lzmaError)
    bufStdPastEnd
    ⟨0, 0, none, none, none, ⟨0, 0, 0, 0, 0, 0, 0, 0, false, [⟨0⟩]⟩, none, 0, 9, 44⟩
    (by decide) (by decide)
  exact ⟨h.1, h.2.2 rfl PyErr.lzmaError rfl⟩

/-- C7: for every buffer whose decoded game mode is not the primary mode
(code 0), the play-data step consumes exactly the declared payload length —
the final cursor is the payload start plus the length field — returns no
event sequence, and this is not an error. -/
theorem nonprimary_mode_skips_payload
    (lz : List Nat → Except PyErr (List Nat)) (buf : List Nat) (h : Header)
    (hh : parse_header buf = .ok h) (hmode : h.game_mode ≠ 0) :
    parse_play_data lz buf h = .ok (none, (h.offset : Int) + h.replay_length) := by
  simp [parse_play_data, hmode]

theorem nonprimary_mode_skips_payload_witness :
    parse_play_data (fun _ => .error PyErr.lzmaError) bufManiaShort
      ⟨3, 0, none, none, none, ⟨0, 0, 0, 0, 0, 0, 0, 0, false, [⟨0⟩]⟩, none, 0, 7, 44⟩ =
      .ok (none, 51) :=
  nonprimary_mode_skips_payload (fun _ => .error PyErr.lzmaError) bufManiaShort
    ⟨3, 0, none, none, none, ⟨0, 0, 0, 0, 0, 0, 0, 0, false, [⟨0⟩]⟩, none, 0, 7, 44⟩
    (by decide) (by decide)

/-- C3: a present string field whose tag byte is neither 0x00 nor 0x0b makes
`parse_string` raise — but with the generic `Exception("Invalid replay")`,
not a distinguishable typed error (the code carries a TODO to replace it
with a custom exception). -/
theorem unknown_tag_generic_exception (buf : List Nat) (offset b : Nat)
    (hb : buf[offset]? = some b) (h0 : b ≠ 0x00) (h11 : b ≠ 0x0b) :
    parse_string buf offset = .error (PyErr.exception "Invalid replay") := by
  simp [parse_string, hb, h0, h11]

theorem unknown_tag_generic_exception_witness :
    parse_string [5] 0 = .error (PyErr.exception "Invalid replay") :=
  unknown_tag_generic_exception [5] 0 5 rfl (by decide) (by decide)

/-- C4 (amended): a play-data token with fewer than four fields makes the
decode fail — with an untyped IndexError/ValueError, not a typed error —
unless the token sits at index 2 or later and its relative-time field parses
to a negative integer, in which case the skip branch reads only the first
field and no error occurs. -/
theorem short_token_outside_skip_fails (s : String) (j : Nat)
    (fields : List (List Char)) (hj : (tokensOf s)[j]? = some fields)
    (hlen : fields.length < 4) (hskip : ¬ skipToken j fields) :
    isOk (decodePlayDataText s) = false := by
  have h := processEvents_short_fields_error (tokensOf s) 0 0 j fields hj hlen
    (by simpa using hskip)
  unfold decodePlayDataText
  cases hp : processEvents 0 0 (tokensOf s) with
  | error e => simp [isOk]
  | ok evs =>
    rw [hp] at h
    simp [isOk] at h

theorem short_token_outside_skip_fails_witness :
    isOk (decodePlayDataText "0|0,") = false :=
  short_token_outside_skip_fails "0|0," 0 [['0'], ['0']] (by decide) (by decide)
    (fun hs => absurd hs.1 (by decide))

/-- C4 (counterexample to the claim as stated): the payload
"0|0|0|0,0|0|0|0,-5,3|1|2|0," contains the one-field token "-5" at index 2,
yet the decode succeeds — the negative relative time puts the token in the
skip branch, which never touches the missing x/y/keys fields. -/
theorem short_skip_token_no_error :
    decodePlayDataText "0|0|0|0,0|0|0|0,-5,3|1|2|0," = .ok [⟨-2, 1, 2, 0⟩] := by
  decide

/-- C5: expanding a 32-bit modifier mask yields flags whose bitwise OR
reproduces the mask exactly, with no flag repeated (a set), and the zero
mask yields exactly the singleton sentinel flag of value 0 rather than an
empty set. -/
theorem expandMods_mask_invariant (mask : Nat) (hmask : mask < 2 ^ 32) :
    ((expandMods mask).foldr (fun m acc => m.val ||| acc) 0 = mask ∧
      (expandMods mask).Nodup) ∧ expandMods 0 = [⟨0⟩] := by
  refine ⟨⟨?_, ?_⟩, rfl⟩
  · rw [expandMods, List.foldr_map]
    exact foldr_or_bits mask
  · exact List.Nodup.map (fun x y hxy => by injection hxy) (bits_nodup mask)

theorem expandMods_mask_invariant_witness :
    ((expandMods 5).foldr (fun m acc => m.val ||| acc) 0 = 5 ∧
      (expandMods 5).Nodup) ∧ expandMods 0 = [⟨0⟩] :=
  expandMods_mask_invariant 5 (by decide)

/-- C6: the ULEB128 decoder `__decode` round-trips the spec's encoding: for
every n, decoding the encoding of n (followed by anything) yields n and
consumes exactly the encoding's bytes; explicitly checked at the multi-byte
boundaries 127, 128, 16383 and 16384. -/
theorem uleb128_round_trip :
    (∀ (n : Nat) (rest : List Nat),
        decode (uleb128Encode n ++ rest) 0 = .ok (n, (uleb128Encode n).length)) ∧
      uleb128Encode 127 = [127] ∧ uleb128Encode 128 = [128, 1] ∧
      uleb128Encode 16383 = [255, 127] ∧ uleb128Encode 16384 = [128, 128, 1] ∧
      decode [127] 0 = .ok (127, 1) ∧ decode [128, 1] 0 = .ok (128, 2) ∧
      decode [255, 127] 0 = .ok (16383, 2) ∧ decode [128, 128, 1] 0 = .ok (16384, 3) :=
  ⟨decode_encode, by decide, by decide, by decide, by decide, by decide, by decide,
    by decide, by decide⟩

/-- C8: reading a tagged string at a tag byte 0x00 yields an absent value
and advances the cursor by exactly 1 byte; at tag 0x0b with ULEB128 length 5
followed by the bytes of "hello", it yields "hello" and advances the cursor
by exactly 1 + 1 + 5 = 7 bytes. -/
theorem parse_string_tag_semantics :
    (∀ (buf : List Nat) (offset : Nat), buf[offset]? = some 0 →
        parse_string buf offset = .ok (none, offset + 1)) ∧
      parse_string [0x0b, 5, 104, 101, 108, 108, 111] 0 = .ok (some "hello", 7) := by
  constructor
  · intro buf offset hb
    simp [parse_string, hb]
  · decide

theorem parse_string_tag_semantics_witness :
    parse_string [0] 0 = .ok (none, 1) :=
  parse_string_tag_semantics.1 [0] 0 rfl

/-- C9: an event's left-button query holds exactly when bit 0 of the raw
keys-pressed bitmask is set, and the right-button query exactly when bit 1
is set. -/
theorem event_key_queries (e : ReplayEvent) (k : Nat)
    (hk : e.keys_pressed = (k : Int)) :
    (e.left = true ↔ k.testBit 0 = true) ∧ (e.right = true ↔ k.testBit 1 = true) := by
  constructor
  · rw [ReplayEvent.left, hk]
    have h1 : Int.land (k : Int) 1 = ((k &&& 1 : Nat) : Int) := rfl
    rw [h1, Nat.and_one_is_mod, Nat.testBit_zero]
    simp only [decide_eq_true_eq, ne_eq]
    constructor
    · intro hne
      omega
    · intro hm
      omega
  · rw [ReplayEvent.right, hk]
    have h1 : Int.land (k : Int) 2 = ((k &&& 2 : Nat) : Int) := rfl
    have h2 := Nat.and_two_pow k 1
    norm_num at h2
    rw [h1, h2]
    simp only [decide_eq_true_eq, ne_eq]
    cases htb : Nat.testBit k 1 <;> simp

theorem event_key_queries_witness :
    ((⟨0, 0, 0, 3⟩ : ReplayEvent).left = true ↔ Nat.testBit 3 0 = true) ∧
      ((⟨0, 0, 0, 3⟩ : ReplayEvent).right = true ↔ Nat.testBit 3 1 = true) :=
  event_key_queries ⟨0, 0, 0, 3⟩ 3 rfl

/-- C10: a present string (tag 0x0b) whose ULEB128 length exceeds the bytes
remaining raises no truncation error: the slice silently clamps, the result
is the UTF-8 decoding of whatever bytes remain (when they are valid UTF-8),
and the returned cursor offset lies past the end of the buffer. -/
theorem oversized_length_silently_truncates (buf : List Nat) (offset n off2 : Nat)
    (s : String) (htag : buf[offset]? = some 0x0b)
    (hdec : decode buf (offset + 1) = .ok (n, off2))
    (hpast : buf.length < off2 + n)
    (hutf : utf8Decode (buf.drop off2) = some s) :
    parse_string buf offset = .ok (some s, off2 + n) ∧ buf.length < off2 + n := by
  refine ⟨?_, hpast⟩
  have hslice : pySlice buf off2 (off2 + n) = buf.drop off2 := by
    rw [pySlice, List.take_of_length_le (by omega)]
  simp [parse_string, htag, hdec, hslice, hutf]

theorem oversized_length_silently_truncates_witness :
    parse_string [11, 5, 104, 105] 0 = .ok (some "hi", 2 + 5) ∧
      ([11, 5, 104, 105] : List Nat).length < 2 + 5 :=
  oversized_length_silently_truncates [11, 5, 104, 105] 0 5 2 "hi" rfl (by decide)
    (by decide) (by decide)

end Osr
